import Mathlib

/-!
Verification of `src/recursive_dump.py` (mysql-recursive-dump).

The Python program discovers all tables transitively connected to a root
table through live (non-null-populated) foreign keys, orders them with a
multi-pass interactive topological sort, and emits a SQL dump (TRUNCATE
section in reverse order, INSERT section in forward order).

Shallow embedding: the database connection is modelled by a `DB` record of
pure query functions (mirroring the metadata/row queries the script issues);
`input()` responses are a function from table name to the raw response
string; printing is modelled by returning the reported data.  All machine
work (string trimming, lowering, joining) is embedded over `List Char` so
that concrete runs reduce inside the kernel.
-/

namespace RecursiveDump

/-- A SQL scalar as handled by `sql_escape`: `None`, a numeric value, or a
string (the script's `int`/`float` branch is modelled by `num`). -/
inductive Value where
  | null : Value
  | num (n : Int) : Value
  | str (s : String) : Value
deriving DecidableEq

/-- The database, as seen through the queries the script performs.
`get_foreign_key_parents t` returns `(referenced_table, fk_column)` pairs,
`get_foreign_key_children t` returns `(child_table, fk_column)` pairs,
`has_non_null_fk_values t c` is the `SELECT 1 ... WHERE c IS NOT NULL` probe,
and `columns`/`rows` model `fetch_all_rows` for `dump_table` (each row is the
list of values aligned with `columns t`). -/
structure DB where
  get_foreign_key_parents : String → List (String × String)
  get_foreign_key_children : String → List (String × String)
  has_non_null_fk_values : String → String → Bool
  columns : String → List String
  rows : String → List (List Value)

/-- Python `str.strip()` (both-ends whitespace removal) on the char list. -/
def pyStrip (s : String) : String :=
  ⟨((s.data.dropWhile Char.isWhitespace).reverse.dropWhile Char.isWhitespace).reverse⟩

/-- Python `str.lower()` (ASCII case folding suffices for this program). -/
def pyLower (s : String) : String := ⟨s.data.map Char.toLower⟩

/-- Python `sep.join(parts)`. -/
def pyJoin (sep : String) : List String → String
  | [] => ""
  | [x] => x
  | x :: y :: xs => x ++ sep ++ pyJoin sep (y :: xs)

/-- The confirmation test of the resolver:
`confirm = input(...).strip().lower(); confirm == "" or confirm == "y"`. -/
def accepted (resp : String) : Bool :=
  let confirm := pyLower (pyStrip resp)
  confirm == "" || confirm == "y"

/-- Python `str.replace("'", "''")` used by `sql_escape`, on chars. -/
def escQuote : List Char → List Char
  | [] => []
  | c :: rest => if c = '\'' then '\'' :: '\'' :: escQuote rest else c :: escQuote rest

/-- `sql_escape(value)`: `NULL` for `None`, bare digits for numbers, quoted
with doubled single quotes otherwise. -/
def sql_escape : Value → String
  | Value.null => "NULL"
  | Value.num n => toString n
  | Value.str s => "'" ++ (⟨escQuote s.data⟩ : String) ++ "'"

/-- Code-point lexicographic comparison of char lists, modelling Python's
string `<` / `sorted` order. -/
def lexLe : List Char → List Char → Bool
  | [], _ => true
  | _ :: _, [] => false
  | a :: as, b :: bs => if a < b then true else if b < a then false else lexLe as bs

/-- Python string comparison `s <= t` as used by `sorted`. -/
def strLe (s t : String) : Bool := lexLe s.data t.data

/-- The relation `sorted` orders by. -/
def strLeR (s t : String) : Prop := strLe s t = true

instance : DecidableRel strLeR := fun s t => inferInstanceAs (Decidable (strLe s t = true))

/-- Python `sorted(tables)`: ascending code-point order (stable; inputs here
are duplicate-free). -/
def pySorted (l : List String) : List String := List.insertionSort strLeR l

/-- State of the depth-first discovery: `(visited, traversal)`. -/
abbrev DfsSt := List String × List String

/-- The inner `dfs(table)` of `resolve_recursive_dependencies`: mark visited,
recurse into live parents (the `for p, fk_col in parents` loop, an edge being
followed only when the local FK column holds a non-null value), record the
table, then recurse into live children (liveness evaluated on the child's
column).  Python's unbounded recursion is modelled with a fuel parameter;
every claim is proved for all fuel values. -/
def dfs (db : DB) : Nat → DfsSt → String → DfsSt
  | 0, st, _ => st
  | fuel + 1, st, table =>
    if st.1.contains table then st
    else
      let st1 : DfsSt := (table :: st.1, st.2)
      let st2 := (db.get_foreign_key_parents table).foldl
        (fun st pfk =>
          if db.has_non_null_fk_values table pfk.2 then dfs db fuel st pfk.1 else st) st1
      let st3 : DfsSt := (st2.1, st2.2 ++ [table])
      (db.get_foreign_key_children table).foldl
        (fun st cfk =>
          if db.has_non_null_fk_values cfk.1 cfk.2 then dfs db fuel st cfk.1 else st) st3

/-- The `traversal` list produced by `dfs(start_table)`. -/
def discover (db : DB) (fuel : Nat) (start : String) : List String :=
  (dfs db fuel ([], []) start).2

/-- One resolution entry, as built per table:
`{"name": t, "childOf": parents, "parentOf": children, "dumped": False}`. -/
structure Entry where
  name : String
  childOf : List String
  parentOf : List String
  dumped : Bool
deriving DecidableEq

/-- The `parents` list of the entry built for `t`: live FK parents that are
also in the discovered table set (duplicates and self-references are kept,
exactly as in the source). -/
def origChildOf (db : DB) (tables : List String) (t : String) : List String :=
  ((db.get_foreign_key_parents t).filter
    (fun pc => tables.contains pc.1 && db.has_non_null_fk_values t pc.2)).map Prod.fst

/-- The `children` list of the entry built for `t` (unused by the ordering
logic, kept for fidelity). -/
def origParentOf (db : DB) (tables : List String) (t : String) : List String :=
  ((db.get_foreign_key_children t).filter
    (fun cc => tables.contains cc.1 && db.has_non_null_fk_values cc.1 cc.2)).map Prod.fst

/-- Entry construction for one table of `sorted(tables)`. -/
def buildEntry (db : DB) (tables : List String) (t : String) : Entry :=
  { name := t
    childOf := origChildOf db tables t
    parentOf := origParentOf db tables t
    dumped := false }

/-- Removing a resolved table from an entry's `childOf`
(`[x for x in other["childOf"] if x != name]`). -/
def removeName (n : String) (o : Entry) : Entry :=
  { o with childOf := o.childOf.filter (fun x => x != n) }

/-- One pass of the `for entry in entries` loop.  The Python loop mutates the
shared `entries` list in place; here the list is threaded as
`done ++ todo` with `todo` the entries not yet examined this pass.  When a
ready entry is confirmed it is appended to the order; confirmed or skipped,
it is marked dumped and removed from every entry's `childOf`.  The `fuel`
argument (always called with `todo.length`, which every step preserves) makes
the recursion structural. -/
def resolvePass (resp : String → String) :
    Nat → List Entry → List Entry → List String → Bool → List Entry × List String × Bool
  | _, done, [], ord, prog => (done, ord, prog)
  | 0, done, todo, ord, prog => (done ++ todo, ord, prog)
  | fuel + 1, done, e :: todo, ord, prog =>
    if e.dumped then resolvePass resp fuel (done ++ [e]) todo ord prog
    else if e.childOf.isEmpty then
      let name := e.name
      let done' := (done ++ [{ e with dumped := true }]).map (removeName name)
      let todo' := todo.map (removeName name)
      if accepted (resp name) then resolvePass resp fuel done' todo' (ord ++ [name]) true
      else resolvePass resp fuel done' todo' ord true
    else resolvePass resp fuel (done ++ [e]) todo ord prog

/-- Names of the entries still blocked (`remaining`), as reported on
deadlock. -/
def remainingNames (l : List Entry) : List String :=
  (l.filter (fun e => !e.dumped)).map Entry.name

/-- The `while True` multi-pass loop.  Returns the confirmed order together
with the blocked-table report printed on deadlock (empty when every entry was
resolved).  Each productive pass dumps at least one entry, so
`entries.length + 1` passes always reach the exit; the fuel argument makes
that bound explicit. -/
def resolveLoop (resp : String → String) :
    Nat → List Entry → List String → List String × List String
  | 0, entries, ord => (ord, remainingNames entries)
  | fuel + 1, entries, ord =>
    match resolvePass resp entries.length [] entries ord false with
    | (entries', ord', true) => resolveLoop resp fuel entries' ord'
    | (entries', ord', false) => (ord', remainingNames entries')

/-- The deduplicated table set (`tables = set(traversal)`): membership is what
the construction uses, and `sorted` later fixes the iteration order. -/
def tablesOf (db : DB) (fuel : Nat) (start : String) : List String :=
  (discover db fuel start).dedup

/-- `sorted(tables)`. -/
def sortedTablesOf (db : DB) (fuel : Nat) (start : String) : List String :=
  pySorted (tablesOf db fuel start)

/-- The `entries` list built before the multi-pass loop. -/
def entriesOf (db : DB) (fuel : Nat) (start : String) : List Entry :=
  (sortedTablesOf db fuel start).map (buildEntry db (tablesOf db fuel start))

/-- `resolve_recursive_dependencies(conn, start_table)`: discovery, entry
construction, multi-pass resolution.  First component: the returned
`ordered_to_dump`; second: the deadlock report (empty when none). -/
def resolve_recursive_dependencies (db : DB) (resp : String → String)
    (start : String) (fuel : Nat) : List String × List String :=
  let traversal := discover db fuel start
  if traversal.isEmpty then ([], [])
  else
    let entries := entriesOf db fuel start
    resolveLoop resp (entries.length + 1) entries []

/-- The comment header opening a table's dump block. -/
def dumpHeader (table : String) : String := "-- Dump of table `" ++ table ++ "`"

/-- `", ".join(f"\x60{c}\x60" for c in columns)`. -/
def colListOf (db : DB) (table : String) : String :=
  pyJoin ", " ((db.columns table).map (fun c => "`" ++ c ++ "`"))

/-- One formatted row tuple `(v1, v2, ...)`. -/
def formatRow (row : List Value) : String :=
  "(" ++ pyJoin ", " (row.map sql_escape) ++ ")"

/-- One batched `INSERT` statement from up to 1000 formatted rows. -/
def mkInsert (table colList : String) (batch : List String) : String :=
  "INSERT INTO `" ++ table ++ "` (" ++ colList ++ ") VALUES\n" ++
    pyJoin ",\n" batch ++ ";"

/-- The row loop of `dump_table`: accumulate formatted rows, emit an `INSERT`
every 1000 rows, flush the remainder after the loop. -/
def insertStmts (table colList : String) : List (List Value) → List String → List String
  | [], batch => if batch.isEmpty then [] else [mkInsert table colList batch]
  | row :: rest, batch =>
    let batch' := batch ++ [formatRow row]
    if batch'.length == 1000 then
      mkInsert table colList batch' :: insertStmts table colList rest []
    else insertStmts table colList rest batch'

/-- `dump_table(conn, table)`: empty string when the table has no rows,
otherwise the header comment, the batched inserts, and a trailing blank line,
joined by newlines. -/
def dump_table (db : DB) (table : String) : String :=
  let rows := db.rows table
  if rows.isEmpty then ""
  else
    let sql := dumpHeader table :: insertStmts table (colListOf db table) rows [] ++ [""]
    pyJoin "\n" sql

/-- `main`'s insertion section: one dump per table in order, dropping falsy
(empty) dumps. -/
def insertParts (db : DB) (tables : List String) : List String :=
  (tables.map (fun t => dump_table db t)).filter (fun d => d != "")

/-- The order in which `main` emits TRUNCATE statements
(`for t in reversed(tables)`). -/
def truncationOrder (tables : List String) : List String := tables.reverse

/-- The order in which `main` emits insert blocks (`for t in tables`). -/
def insertionOrder (tables : List String) : List String := tables

/-- `main`'s TRUNCATE section. -/
def truncate_sql (tables : List String) : List String :=
  "-- TRUNCATE tables (children to parents)" ::
    (truncationOrder tables).map (fun t => "TRUNCATE TABLE `" ++ t ++ "`;")

/-- The complete dump text assembled by `main`. -/
def dump_sql (db : DB) (tables : List String) : String :=
  pyJoin "\n" (truncate_sql tables) ++ "\n\n" ++
    pyJoin "\n" (insertParts db (insertionOrder tables))

/-- One live discovery step, exactly the edges `dfs` is willing to follow:
a live parent edge out of `t`, or a live child edge (liveness checked on the
child's column). -/
def liveAdj (db : DB) (t u : String) : Prop :=
  (∃ c, (u, c) ∈ db.get_foreign_key_parents t ∧ db.has_non_null_fk_values t c = true) ∨
  (∃ c, (u, c) ∈ db.get_foreign_key_children t ∧ db.has_non_null_fk_values u c = true)

/-- Transitive live reachability from a table, in either FK direction. -/
def LiveReach (db : DB) : String → String → Prop :=
  Relation.ReflTransGen (liveAdj db)

/-- An all-yes answer source (the empty response, Python's default). -/
def respYes : String → String := fun _ => ""

/-- Decline table `b`, accept everything else (with a whitespace response). -/
def respDeclineB : String → String := fun t => if t = "b" then "n" else " "

/-- Two tables, `a` holding a live FK to `b`. -/
def dbAB : DB :=
  { get_foreign_key_parents := fun t => if t = "a" then [("b", "b_id")] else []
    get_foreign_key_children := fun t => if t = "b" then [("a", "b_id")] else []
    has_non_null_fk_values := fun _ _ => true
    columns := fun _ => ["id"]
    rows := fun _ => [] }

/-- A single table with a live self-referencing FK. -/
def dbSelf : DB :=
  { get_foreign_key_parents := fun t => if t = "a" then [("a", "self_id")] else []
    get_foreign_key_children := fun t => if t = "a" then [("a", "self_id")] else []
    has_non_null_fk_values := fun _ _ => true
    columns := fun _ => ["id"]
    rows := fun _ => [] }

/-- A two-table live cycle `a -> b -> a`. -/
def dbCycle : DB :=
  { get_foreign_key_parents := fun t =>
      if t = "a" then [("b", "b_id")] else if t = "b" then [("a", "a_id")] else []
    get_foreign_key_children := fun t =>
      if t = "a" then [("b", "a_id")] else if t = "b" then [("a", "b_id")] else []
    has_non_null_fk_values := fun _ _ => true
    columns := fun _ => ["id"]
    rows := fun _ => [] }

/-- `a` references `b` through an entirely-null (dormant) FK column. -/
def dbDormant : DB :=
  { get_foreign_key_parents := fun t => if t = "a" then [("b", "b_id")] else []
    get_foreign_key_children := fun t => if t = "b" then [("a", "b_id")] else []
    has_non_null_fk_values := fun _ _ => false
    columns := fun _ => ["id"]
    rows := fun _ => [] }

/-- A lone table with no foreign keys and no rows. -/
def dbLone : DB :=
  { get_foreign_key_parents := fun _ => []
    get_foreign_key_children := fun _ => []
    has_non_null_fk_values := fun _ _ => true
    columns := fun _ => ["id"]
    rows := fun _ => [] }

/-- A lone table `b` with no foreign keys and two rows. -/
def dbRows : DB :=
  { get_foreign_key_parents := fun _ => []
    get_foreign_key_children := fun _ => []
    has_non_null_fk_values := fun _ _ => true
    columns := fun _ => ["id", "nm"]
    rows := fun t => if t = "b" then [[Value.num 1, Value.str "x"], [Value.num 2, Value.null]] else [] }

/-- Some entry of `E` carries name `n` and has been resolved (dumped). -/
def dumpedName (E : List Entry) (n : String) : Prop :=
  ∃ e ∈ E, e.name = n ∧ e.dumped = true

/-- `p` occurs strictly before `t` in `ord`: `ord` splits into a part
containing `p` followed by a part containing `t`. -/
def Before (ord : List String) (p t : String) : Prop :=
  ∃ l1 l2, ord = l1 ++ l2 ∧ p ∈ l1 ∧ t ∈ l2

/-- The resolver loop invariant, relating the current entry list `E` to the
order `ord` built so far.  `tables` is the discovered table set and
`origChildOf db tables` the pending-parent list each entry started from. -/
structure Inv (db : DB) (tables : List String) (resp : String → String)
    (E : List Entry) (ord : List String) : Prop where
  nodupNames : (E.map Entry.name).Nodup
  namesSub : ∀ e ∈ E, e.name ∈ tables
  ordNodup : ord.Nodup
  ordDumped : ∀ n ∈ ord, dumpedName E n
  ordAccepted : ∀ n ∈ ord, accepted (resp n) = true
  undumpedNotOrd : ∀ e ∈ E, e.dumped = false → e.name ∉ ord
  childComplete : ∀ e ∈ E, e.dumped = false →
    ∀ p ∈ origChildOf db tables e.name, p ∈ e.childOf ∨ dumpedName E p
  dumpedResolved : ∀ e ∈ E, e.dumped = true →
    ∀ p ∈ origChildOf db tables e.name, p ≠ e.name → dumpedName E p
  orderOK : ∀ t ∈ ord, ∀ p ∈ origChildOf db tables t, p ≠ t → p ∈ ord → Before ord p t

/-- A blocked cycle: every table of `C` still has an entry that is pending
and waits on some member of `C`. -/
def CycInv (C : List String) (E : List Entry) : Prop :=
  ∀ t ∈ C, ∃ e ∈ E, e.name = t ∧ e.dumped = false ∧ ∃ p ∈ C, p ∈ e.childOf

/-- The entry-list transformation performed when the ready entry `e` (the
list being `d ++ e :: t`) is confirmed or skipped: mark it dumped, then
delete its name from every entry's `childOf`. -/
def stepUpdate (d t : List Entry) (e : Entry) : List Entry :=
  (d ++ { e with dumped := true } :: t).map (removeName e.name)

/-! ## Theorems -/

/-- Claim C9: every confirmation prompt issued by the resolver treats an empty
or whitespace-only response (one whose stripped form is empty) as acceptance,
exactly as an explicit yes — never as a decline, an error, or a third state. -/
theorem claim_C9 (resp : String) (h : pyStrip resp = "") :
    accepted resp = true ∧ accepted resp = accepted "y" := by
  have ha : accepted resp = true := by
    show (pyLower (pyStrip resp) == "" || pyLower (pyStrip resp) == "y") = true
    rw [h]; decide
  exact ⟨ha, by rw [ha]; decide⟩

/-- Witness for C9 at the concrete whitespace-only response `"  "`. -/
theorem claim_C9_witness :
    pyStrip "  " = "" ∧ accepted "  " = true ∧ accepted "  " = accepted "y" := by
  refine ⟨by decide, ?_⟩
  exact claim_C9 "  " (by decide)

/-- Claim C6: for every resolved order, `main` emits inserts in the resolved
order verbatim and TRUNCATEs in the reversed order, so reversing the
truncation order yields the insertion order. -/
theorem claim_C6 (db : DB) (resp : String → String) (start : String) (fuel : Nat) :
    insertionOrder (resolve_recursive_dependencies db resp start fuel).1 =
      (resolve_recursive_dependencies db resp start fuel).1 ∧
    truncationOrder (resolve_recursive_dependencies db resp start fuel).1 =
      (resolve_recursive_dependencies db resp start fuel).1.reverse ∧
    (truncationOrder (resolve_recursive_dependencies db resp start fuel).1).reverse =
      insertionOrder (resolve_recursive_dependencies db resp start fuel).1 :=
  ⟨rfl, rfl, List.reverse_reverse _⟩

/-- Claim C2 (evaluation of the code on the failing input): for a single
table `a` with a live self-referencing FK, entry construction does NOT filter
the self-edge — `childOf` is `["a"]` — so the resolver deadlocks and returns
the empty order, reporting `a` blocked, instead of resolving to `["a"]` as
the specification requires. -/
theorem claim_C2_code_eval :
    (entriesOf dbSelf 2 "a").map Entry.childOf = [["a"]] ∧
    resolve_recursive_dependencies dbSelf respYes "a" 2 = ([], ["a"]) := by decide

/-- Counterexample to claim C3: table `a` is in the resolved (insertion)
order, but because it has zero rows `dump_table` returns the empty string and
`main` filters it out — the insertion section contains no block at all for
`a`, in particular no comment noting the table is empty. -/
theorem claim_C3_counterexample :
    (resolve_recursive_dependencies dbLone respYes "a" 2).1 = ["a"] ∧
    dump_table dbLone "a" = "" ∧
    insertParts dbLone (insertionOrder (resolve_recursive_dependencies dbLone respYes "a" 2).1) = [] := by
  decide

theorem lexLe_total : ∀ as bs : List Char, lexLe as bs = true ∨ lexLe bs as = true
  | [], _ => Or.inl rfl
  | _ :: _, [] => Or.inr rfl
  | a :: as, b :: bs => by
    rcases lt_trichotomy a b with h | h | h
    · left; simp [lexLe, h]
    · subst h
      rcases lexLe_total as bs with ih | ih
      · left; simp [lexLe, lt_irrefl, ih]
      · right; simp [lexLe, lt_irrefl, ih]
    · right; simp [lexLe, h]

theorem lexLe_trans : ∀ as bs cs : List Char,
    lexLe as bs = true → lexLe bs cs = true → lexLe as cs = true
  | [], _, _ => by intro _ _; rfl
  | _ :: _, [], _ => by intro h1 _; simp [lexLe] at h1
  | _ :: _, _ :: _, [] => by intro _ h2; simp [lexLe] at h2
  | a :: as, b :: bs, c :: cs => by
    intro h1 h2
    by_cases hab : a < b
    · by_cases hbc : b < c
      · simp [lexLe, lt_trans hab hbc]
      · by_cases hcb : c < b
        · simp [lexLe, hbc, hcb] at h2
        · have hbc' : b = c := le_antisymm (not_lt.mp hcb) (not_lt.mp hbc)
          subst hbc'; simp [lexLe, hab]
    · by_cases hba : b < a
      · simp [lexLe, hab, hba] at h1
      · have hab' : a = b := le_antisymm (not_lt.mp hba) (not_lt.mp hab)
        subst hab'
        simp only [lexLe, lt_irrefl, if_false] at h1
        by_cases hac : a < c
        · simp [lexLe, hac]
        · by_cases hca : c < a
          · simp [lexLe, hac, hca] at h2
          · have hac' : a = c := le_antisymm (not_lt.mp hca) (not_lt.mp hac)
            subst hac'
            simp only [lexLe, lt_irrefl, if_false] at h2 ⊢
            exact lexLe_trans as bs cs h1 h2

instance : IsTotal String strLeR := ⟨fun a b => lexLe_total a.data b.data⟩

instance : IsTrans String strLeR :=
  ⟨fun a b c h1 h2 => lexLe_trans a.data b.data c.data h1 h2⟩

/-- The names of the constructed entries, in the order every pass iterates
them, are exactly `sorted(tables)`. -/
theorem entriesOf_names (db : DB) (fuel : Nat) (start : String) :
    (entriesOf db fuel start).map Entry.name = sortedTablesOf db fuel start := by
  simp [entriesOf, buildEntry, List.map_map, Function.comp_def]

/-- Claim C7: entries are evaluated within each pass in a fixed
lexicographic-by-table-name order, and two runs over the same graph structure
with identical confirmation answers produce identical results. -/
theorem claim_C7 (db₁ db₂ : DB) (resp₁ resp₂ : String → String) (start : String)
    (fuel : Nat) (hdb : db₁ = db₂) (hresp : resp₁ = resp₂) :
    List.Sorted strLeR ((entriesOf db₁ fuel start).map Entry.name) ∧
    resolve_recursive_dependencies db₁ resp₁ start fuel =
      resolve_recursive_dependencies db₂ resp₂ start fuel := by
  subst hdb; subst hresp
  refine ⟨?_, rfl⟩
  rw [entriesOf_names]
  exact List.sorted_insertionSort strLeR _

/-- Witness for C7: two identical runs over the live chain `a -> b` agree,
and the pass evaluates entries in sorted name order. -/
theorem claim_C7_witness :
    List.Sorted strLeR ((entriesOf dbAB 3 "a").map Entry.name) ∧
    resolve_recursive_dependencies dbAB respYes "a" 3 =
      resolve_recursive_dependencies dbAB respYes "a" 3 :=
  claim_C7 dbAB dbAB respYes respYes "a" 3 rfl rfl

/-- Soundness of one edge-following fold of `dfs`: everything in the state
after the fold was already there, or is live-reachable from one of the listed
edge targets whose liveness test passed. -/
theorem foldl_dfs_sound (db : DB) (fuel : Nat) (cond : String × String → Bool)
    (IH : ∀ (st : DfsSt) (t x : String),
      (x ∈ (dfs db fuel st t).1 → x ∈ st.1 ∨ LiveReach db t x) ∧
      (x ∈ (dfs db fuel st t).2 → x ∈ st.2 ∨ LiveReach db t x)) :
    ∀ (l : List (String × String)) (st : DfsSt) (x : String),
      (x ∈ (l.foldl (fun st e => if cond e then dfs db fuel st e.1 else st) st).1 →
        x ∈ st.1 ∨ ∃ e ∈ l, cond e = true ∧ LiveReach db e.1 x) ∧
      (x ∈ (l.foldl (fun st e => if cond e then dfs db fuel st e.1 else st) st).2 →
        x ∈ st.2 ∨ ∃ e ∈ l, cond e = true ∧ LiveReach db e.1 x)
  | [], st, x => ⟨fun h => Or.inl h, fun h => Or.inl h⟩
  | e :: rest, st, x => by
    have hrec := foldl_dfs_sound db fuel cond IH rest
      (if cond e then dfs db fuel st e.1 else st) x
    simp only [List.foldl_cons]
    constructor
    · intro h
      rcases hrec.1 h with h1 | ⟨e', he', hc, hr⟩
      · by_cases hce : cond e = true
        · rw [if_pos hce] at h1
          rcases (IH st e.1 x).1 h1 with h2 | h2
          · exact Or.inl h2
          · exact Or.inr ⟨e, List.mem_cons_self .., hce, h2⟩
        · rw [if_neg hce] at h1
          exact Or.inl h1
      · exact Or.inr ⟨e', List.mem_cons_of_mem _ he', hc, hr⟩
    · intro h
      rcases hrec.2 h with h1 | ⟨e', he', hc, hr⟩
      · by_cases hce : cond e = true
        · rw [if_pos hce] at h1
          rcases (IH st e.1 x).2 h1 with h2 | h2
          · exact Or.inl h2
          · exact Or.inr ⟨e, List.mem_cons_self .., hce, h2⟩
        · rw [if_neg hce] at h1
          exact Or.inl h1
      · exact Or.inr ⟨e', List.mem_cons_of_mem _ he', hc, hr⟩

/-- Soundness of `dfs`: every table it adds to the visited set or the
traversal is live-reachable from the table it was called on. -/
theorem dfs_sound (db : DB) : ∀ (fuel : Nat) (st : DfsSt) (t x : String),
    (x ∈ (dfs db fuel st t).1 → x ∈ st.1 ∨ LiveReach db t x) ∧
    (x ∈ (dfs db fuel st t).2 → x ∈ st.2 ∨ LiveReach db t x)
  | 0, st, t, x => ⟨fun h => Or.inl h, fun h => Or.inl h⟩
  | fuel + 1, st, t, x => by
    have IH := fun st t x => dfs_sound db fuel st t x
    by_cases hv : st.1.contains t
    · simp only [dfs, hv, if_true]
      exact ⟨fun h => Or.inl h, fun h => Or.inl h⟩
    · simp only [dfs, hv, if_false]
      have hp := foldl_dfs_sound db fuel
        (fun pfk => db.has_non_null_fk_values t pfk.2) IH
        (db.get_foreign_key_parents t) (t :: st.1, st.2)
      have hparent : ∀ y : String,
          (∃ e ∈ db.get_foreign_key_parents t,
            db.has_non_null_fk_values t e.2 = true ∧ LiveReach db e.1 y) →
          LiveReach db t y := by
        rintro y ⟨e, he, hc, hr⟩
        exact Relation.ReflTransGen.head (Or.inl ⟨e.2, he, hc⟩) hr
      set st2 := (db.get_foreign_key_parents t).foldl
        (fun st pfk => if db.has_non_null_fk_values t pfk.2
          then dfs db fuel st pfk.1 else st) (t :: st.1, st.2) with hst2
      have hc := foldl_dfs_sound db fuel
        (fun cfk => db.has_non_null_fk_values cfk.1 cfk.2) IH
        (db.get_foreign_key_children t) (st2.1, st2.2 ++ [t])
      have hchild : ∀ y : String,
          (∃ e ∈ db.get_foreign_key_children t,
            db.has_non_null_fk_values e.1 e.2 = true ∧ LiveReach db e.1 y) →
          LiveReach db t y := by
        rintro y ⟨e, he, hcc, hr⟩
        exact Relation.ReflTransGen.head (Or.inr ⟨e.2, he, hcc⟩) hr
      constructor
      · intro h
        rcases (hc x).1 h with h1 | h1
        · rcases (hp x).1 h1 with h2 | h2
          · rcases List.mem_cons.mp h2 with h3 | h3
            · exact Or.inr (h3 ▸ Relation.ReflTransGen.refl)
            · exact Or.inl h3
          · exact Or.inr (hparent x ⟨_, h2.choose_spec.1, h2.choose_spec.2⟩)
        · exact Or.inr (hchild x h1)
      · intro h
        rcases (hc x).2 h with h1 | h1
        · rcases List.mem_append.mp h1 with h2 | h2
          · rcases (hp x).2 h2 with h3 | h3
            · exact Or.inl h3
            · exact Or.inr (hparent x h3)
          · have : x = t := List.mem_singleton.mp h2
            exact Or.inr (this ▸ Relation.ReflTransGen.refl)
        · exact Or.inr (hchild x h1)

/-- Everything the discovery traversal records is live-reachable from the
root. -/
theorem discover_sound (db : DB) (fuel : Nat) (start x : String)
    (h : x ∈ discover db fuel start) : LiveReach db start x := by
  rcases (dfs_sound db fuel ([], []) start x).2 h with h1 | h1
  · exact absurd h1 (List.not_mem_nil x)
  · exact h1

@[simp] theorem removeName_name (n : String) (o : Entry) : (removeName n o).name = o.name := rfl

@[simp] theorem removeName_dumped (n : String) (o : Entry) :
    (removeName n o).dumped = o.dumped := rfl

@[simp] theorem removeName_childOf (n : String) (o : Entry) :
    (removeName n o).childOf = o.childOf.filter (fun x => x != n) := rfl

/-- In a list with duplicate-free names, two members sharing a name are the
same entry. -/
theorem unique_by_name {E : List Entry} (hnd : (E.map Entry.name).Nodup)
    {x y : Entry} (hx : x ∈ E) (hy : y ∈ E) (hxy : x.name = y.name) : x = y :=
  List.inj_on_of_nodup_map hnd hx hy hxy

theorem Before.append_right {ord : List String} {p t : String} (h : Before ord p t)
    (l : List String) : Before (ord ++ l) p t := by
  obtain ⟨l1, l2, rfl, hp, ht⟩ := h
  exact ⟨l1, l2 ++ l, by rw [List.append_assoc], hp, List.mem_append_left _ ht⟩

theorem before_append_singleton {ord : List String} {p t : String} (hp : p ∈ ord) :
    Before (ord ++ [t]) p t :=
  ⟨ord, [t], rfl, hp, List.mem_singleton_self t⟩

theorem before_indexOf {ord : List String} {p t : String} (hnd : ord.Nodup)
    (h : Before ord p t) : ord.indexOf p < ord.indexOf t := by
  obtain ⟨l1, l2, rfl, hp, ht⟩ := h
  have htn : t ∉ l1 := fun hmem => (List.disjoint_of_nodup_append hnd) hmem ht
  rw [List.indexOf_append_of_mem hp, List.indexOf_append_of_not_mem htn]
  calc l1.indexOf p < l1.length := List.indexOf_lt_length.mpr hp
    _ ≤ l1.length + l2.indexOf t := Nat.le_add_right _ _

theorem mem_of_side {d t : List Entry} (e : Entry) {x : Entry} (hx : x ∈ d ∨ x ∈ t) :
    x ∈ d ++ e :: t := by
  rcases hx with h | h
  · exact List.mem_append_left _ h
  · exact List.mem_append_right _ (List.mem_cons_of_mem _ h)

theorem mem_stepUpdate_of_side {d t : List Entry} {e : Entry} {x : Entry}
    (hx : x ∈ d ∨ x ∈ t) : removeName e.name x ∈ stepUpdate d t e := by
  apply List.mem_map_of_mem
  exact mem_of_side _ hx

theorem mem_stepUpdate_self (d t : List Entry) (e : Entry) :
    removeName e.name { e with dumped := true } ∈ stepUpdate d t e :=
  List.mem_map_of_mem _ (List.mem_append_right _ (List.mem_cons_self _ _))

theorem stepUpdate_mem_cases {d t : List Entry} {e : Entry} {y : Entry}
    (hy : y ∈ stepUpdate d t e) :
    (∃ x, (x ∈ d ∨ x ∈ t) ∧ y = removeName e.name x) ∨
      y = removeName e.name { e with dumped := true } := by
  rcases List.mem_map.mp hy with ⟨x, hx, rfl⟩
  rcases List.mem_append.mp hx with hxd | hxc
  · exact Or.inl ⟨x, Or.inl hxd, rfl⟩
  · rcases List.mem_cons.mp hxc with rfl | hxt
    · exact Or.inr rfl
    · exact Or.inl ⟨x, Or.inr hxt, rfl⟩

theorem stepUpdate_names (d t : List Entry) (e : Entry) :
    (stepUpdate d t e).map Entry.name = (d ++ e :: t).map Entry.name := by
  simp [stepUpdate, List.map_map, Function.comp_def, List.map_append, List.map_cons]

theorem stepUpdate_dumpedName_mono {d t : List Entry} {e : Entry} {p : String}
    (h : dumpedName (d ++ e :: t) p) : dumpedName (stepUpdate d t e) p := by
  obtain ⟨x, hx, hname, hdump⟩ := h
  rcases List.mem_append.mp hx with hxd | hxc
  · exact ⟨removeName e.name x, mem_stepUpdate_of_side (Or.inl hxd), by simpa using hname,
      by simpa using hdump⟩
  · rcases List.mem_cons.mp hxc with rfl | hxt
    · exact ⟨removeName x.name { x with dumped := true }, mem_stepUpdate_self .., by simpa using hname,
        by simp⟩
    · exact ⟨removeName e.name x, mem_stepUpdate_of_side (Or.inr hxt), by simpa using hname,
        by simpa using hdump⟩

theorem stepUpdate_dumpedName_self (d t : List Entry) (e : Entry) :
    dumpedName (stepUpdate d t e) e.name :=
  ⟨removeName e.name { e with dumped := true }, mem_stepUpdate_self .., by simp, by simp⟩

theorem names_ne_of_side {d t : List Entry} {e : Entry}
    (hnd : ((d ++ e :: t).map Entry.name).Nodup) {x : Entry} (hx : x ∈ d ∨ x ∈ t) :
    x.name ≠ e.name := by
  rw [List.map_append, List.map_cons] at hnd
  rcases hx with h | h
  · intro heq
    exact (List.disjoint_of_nodup_append hnd) (List.mem_map_of_mem _ h)
      (heq ▸ List.mem_cons_self _ _)
  · have h2 : (e.name :: t.map Entry.name).Nodup := (List.nodup_append.mp hnd).2.1
    intro heq
    exact (List.nodup_cons.mp h2).1 (heq ▸ List.mem_map_of_mem _ h)

/-- Invariant preservation for one confirm/skip step on the ready entry `e`
(pending, empty `childOf`).  The first conjunct covers the skip (decline)
branch, where the order is unchanged; the second the confirm branch, which
appends `e.name`. -/
theorem step_inv {db : DB} {tables : List String} {resp : String → String}
    {d t : List Entry} {e : Entry} {ord : List String}
    (hI : Inv db tables resp (d ++ e :: t) ord)
    (hd : e.dumped = false) (hc : e.childOf = []) :
    Inv db tables resp (stepUpdate d t e) ord ∧
    (accepted (resp e.name) = true →
      Inv db tables resp (stepUpdate d t e) (ord ++ [e.name])) := by
  have heE : e ∈ d ++ e :: t := List.mem_append_right _ (List.mem_cons_self _ _)
  have hnames := stepUpdate_names d t e
  have nodup' : ((stepUpdate d t e).map Entry.name).Nodup := by
    rw [hnames]; exact hI.nodupNames
  have namesSub' : ∀ y ∈ stepUpdate d t e, y.name ∈ tables := by
    intro y hy
    rcases stepUpdate_mem_cases hy with ⟨x, hx, rfl⟩ | rfl
    · simpa using hI.namesSub x (mem_of_side e hx)
    · simpa using hI.namesSub e heE
  have ordDumped' : ∀ n ∈ ord, dumpedName (stepUpdate d t e) n :=
    fun n hn => stepUpdate_dumpedName_mono (hI.ordDumped n hn)
  have childComplete' : ∀ y ∈ stepUpdate d t e, y.dumped = false →
      ∀ p ∈ origChildOf db tables y.name, p ∈ y.childOf ∨ dumpedName (stepUpdate d t e) p := by
    intro y hy hyd p hp
    rcases stepUpdate_mem_cases hy with ⟨x, hx, rfl⟩ | rfl
    · have hxd : x.dumped = false := by simpa using hyd
      have hp' : p ∈ origChildOf db tables x.name := by simpa using hp
      rcases hI.childComplete x (mem_of_side e hx) hxd p hp' with hin | hdn
      · by_cases hpe : p = e.name
        · exact Or.inr (hpe ▸ stepUpdate_dumpedName_self d t e)
        · refine Or.inl ?_
          simp only [removeName_childOf]
          exact List.mem_filter.mpr ⟨hin, by simpa using hpe⟩
      · exact Or.inr (stepUpdate_dumpedName_mono hdn)
    · simp at hyd
  have dumpedResolved' : ∀ y ∈ stepUpdate d t e, y.dumped = true →
      ∀ p ∈ origChildOf db tables y.name, p ≠ y.name → dumpedName (stepUpdate d t e) p := by
    intro y hy hyd p hp hpne
    rcases stepUpdate_mem_cases hy with ⟨x, hx, rfl⟩ | rfl
    · have hxd : x.dumped = true := by simpa using hyd
      have hp' : p ∈ origChildOf db tables x.name := by simpa using hp
      have hpne' : p ≠ x.name := by simpa using hpne
      exact stepUpdate_dumpedName_mono (hI.dumpedResolved x (mem_of_side e hx) hxd p hp' hpne')
    · have hp' : p ∈ origChildOf db tables e.name := by simpa using hp
      rcases hI.childComplete e heE hd p hp' with hin | hdn
      · rw [hc] at hin; exact absurd hin (List.not_mem_nil p)
      · exact stepUpdate_dumpedName_mono hdn
  have undumped' : ∀ y ∈ stepUpdate d t e, y.dumped = false → y.name ∉ ord := by
    intro y hy hyd
    rcases stepUpdate_mem_cases hy with ⟨x, hx, rfl⟩ | rfl
    · have hxd : x.dumped = false := by simpa using hyd
      simpa using hI.undumpedNotOrd x (mem_of_side e hx) hxd
    · simp at hyd
  have undumpedNe : ∀ y ∈ stepUpdate d t e, y.dumped = false → y.name ≠ e.name := by
    intro y hy hyd
    rcases stepUpdate_mem_cases hy with ⟨x, hx, rfl⟩ | rfl
    · simpa using names_ne_of_side hI.nodupNames hx
    · simp at hyd
  have hnotOrd : e.name ∉ ord := hI.undumpedNotOrd e heE hd
  refine ⟨⟨nodup', namesSub', hI.ordNodup, ordDumped', hI.ordAccepted, undumped',
      childComplete', dumpedResolved', hI.orderOK⟩, ?_⟩
  intro hacc
  refine ⟨nodup', namesSub', ?_, ?_, ?_, ?_, childComplete', dumpedResolved', ?_⟩
  · rw [List.nodup_append]
    refine ⟨hI.ordNodup, List.nodup_singleton _, ?_⟩
    intro a ha hb
    rw [List.mem_singleton.mp hb] at ha
    exact hnotOrd ha
  · intro n hn
    rcases List.mem_append.mp hn with h | h
    · exact ordDumped' n h
    · rw [List.mem_singleton.mp h]
      exact stepUpdate_dumpedName_self d t e
  · intro n hn
    rcases List.mem_append.mp hn with h | h
    · exact hI.ordAccepted n h
    · rw [List.mem_singleton.mp h]; exact hacc
  · intro y hy hyd hmem
    rcases List.mem_append.mp hmem with h | h
    · exact undumped' y hy hyd h
    · exact undumpedNe y hy hyd (List.mem_singleton.mp h)
  · intro t₀ ht₀ p hp hpne hpmem
    rcases List.mem_append.mp ht₀ with ht₀ | ht₀
    · rcases List.mem_append.mp hpmem with hpm | hpm
      · exact (hI.orderOK t₀ ht₀ p hp hpne hpm).append_right [e.name]
      · exfalso
        have hpe : p = e.name := List.mem_singleton.mp hpm
        obtain ⟨x, hxE, hxname, hxdump⟩ := hI.ordDumped t₀ ht₀
        have hdn : dumpedName (d ++ e :: t) p :=
          hI.dumpedResolved x hxE hxdump p (by rw [hxname]; exact hp)
            (by rw [hxname]; exact hpne)
        obtain ⟨z, hzE, hzname, hzdump⟩ := hdn
        have hze : z = e := unique_by_name hI.nodupNames hzE heE (by rw [hzname, hpe])
        rw [hze, hd] at hzdump
        exact Bool.false_ne_true hzdump
    · have ht₀e : t₀ = e.name := List.mem_singleton.mp ht₀
      rcases List.mem_append.mp hpmem with hpm | hpm
      · exact ht₀e ▸ before_append_singleton hpm
      · exact absurd (by rw [List.mem_singleton.mp hpm, ht₀e] : p = t₀) hpne

/-- A closed pending cycle survives one confirm/skip step: the stepped entry
cannot belong to it (its `childOf` is empty), so no member's waiting parent is
removed. -/
theorem step_cyc {C : List String} {d t : List Entry} {e : Entry}
    (hnd : ((d ++ e :: t).map Entry.name).Nodup) (hc : e.childOf = [])
    (hC : CycInv C (d ++ e :: t)) : CycInv C (stepUpdate d t e) := by
  have heE : e ∈ d ++ e :: t := List.mem_append_right _ (List.mem_cons_self _ _)
  have hnC : e.name ∉ C := by
    intro hmem
    obtain ⟨y, hyE, hyname, _, p, _, hpy⟩ := hC e.name hmem
    have hy : y = e := unique_by_name hnd hyE heE hyname
    rw [hy, hc] at hpy
    exact absurd hpy (List.not_mem_nil p)
  intro t₀ ht₀
  obtain ⟨x, hxE, hxname, hxd, p, hpC, hpx⟩ := hC t₀ ht₀
  have hside : x ∈ d ∨ x ∈ t := by
    rcases List.mem_append.mp hxE with h | h
    · exact Or.inl h
    · rcases List.mem_cons.mp h with rfl | h
      · rw [hc] at hpx; exact absurd hpx (List.not_mem_nil p)
      · exact Or.inr h
  refine ⟨removeName e.name x, mem_stepUpdate_of_side hside, by simpa using hxname,
    by simpa using hxd, p, hpC, ?_⟩
  simp only [removeName_childOf]
  refine List.mem_filter.mpr ⟨hpx, ?_⟩
  have : p ≠ e.name := fun hpe => hnC (hpe ▸ hpC)
  simpa using this

/-- Both invariants are preserved by a full pass, for any fuel. -/
theorem resolvePass_invCyc {db : DB} {tables : List String} {resp : String → String}
    {C : List String} :
    ∀ (fuel : Nat) (todo done : List Entry) (ord : List String) (prog : Bool),
      Inv db tables resp (done ++ todo) ord → CycInv C (done ++ todo) →
      Inv db tables resp (resolvePass resp fuel done todo ord prog).1
          (resolvePass resp fuel done todo ord prog).2.1 ∧
        CycInv C (resolvePass resp fuel done todo ord prog).1 := by
  intro fuel
  induction fuel with
  | zero =>
    intro todo done ord prog hI hC
    cases todo with
    | nil =>
      rw [List.append_nil] at hI hC
      exact ⟨hI, hC⟩
    | cons e todo => exact ⟨hI, hC⟩
  | succ fuel ih =>
    intro todo done ord prog hI hC
    cases todo with
    | nil =>
      rw [List.append_nil] at hI hC
      exact ⟨hI, hC⟩
    | cons e todo =>
      have hEq : (done ++ [e]) ++ todo = done ++ e :: todo := by simp
      cases hdm : e.dumped with
      | true =>
        simp only [resolvePass, hdm, if_true]
        exact ih todo (done ++ [e]) ord prog (by rw [hEq]; exact hI) (by rw [hEq]; exact hC)
      | false =>
        cases hce : e.childOf.isEmpty with
        | false =>
          simp only [resolvePass, hdm, hce, if_false, Bool.false_eq_true]
          exact ih todo (done ++ [e]) ord prog (by rw [hEq]; exact hI) (by rw [hEq]; exact hC)
        | true =>
          have hc : e.childOf = [] := List.isEmpty_iff.mp hce
          have hsplit : ((done ++ [{ e with dumped := true }]).map (removeName e.name)) ++
              todo.map (removeName e.name) = stepUpdate done todo e := by
            simp [stepUpdate, List.map_append]
          have hCyc' : CycInv C (stepUpdate done todo e) := step_cyc hI.nodupNames hc hC
          cases hacc : accepted (resp e.name) with
          | true =>
            simp only [resolvePass, hdm, hce, hacc, Bool.false_eq_true, if_false, if_true]
            exact ih (todo.map (removeName e.name))
              ((done ++ [{ e with dumped := true }]).map (removeName e.name)) (ord ++ [e.name]) true
              (by rw [hsplit]; exact (step_inv hI hdm hc).2 hacc)
              (by rw [hsplit]; exact hCyc')
          | false =>
            simp only [resolvePass, hdm, hce, hacc, Bool.false_eq_true, if_false, if_true]
            exact ih (todo.map (removeName e.name))
              ((done ++ [{ e with dumped := true }]).map (removeName e.name)) ord true
              (by rw [hsplit]; exact (step_inv hI hdm hc).1)
              (by rw [hsplit]; exact hCyc')

/-- Both invariants hold at the exit of the multi-pass loop, whose result is
always the accumulated order plus the names of the entries still pending. -/
theorem resolveLoop_invCyc {db : DB} {tables : List String} {resp : String → String}
    {C : List String} :
    ∀ (fuel : Nat) (entries : List Entry) (ord : List String),
      Inv db tables resp entries ord → CycInv C entries →
      ∃ E' ord', resolveLoop resp fuel entries ord = (ord', remainingNames E') ∧
        Inv db tables resp E' ord' ∧ CycInv C E' := by
  intro fuel
  induction fuel with
  | zero =>
    intro entries ord hI hC
    exact ⟨entries, ord, rfl, hI, hC⟩
  | succ fuel ih =>
    intro entries ord hI hC
    have hpass := resolvePass_invCyc (C := C) entries.length entries [] ord false
      (by rw [List.nil_append]; exact hI) (by rw [List.nil_append]; exact hC)
    rcases hres : resolvePass resp entries.length [] entries ord false with ⟨E1, o1, prog⟩
    rw [hres] at hpass
    cases prog with
    | true =>
      have := ih E1 o1 hpass.1 hpass.2
      simpa only [resolveLoop, hres] using this
    | false =>
      exact ⟨E1, o1, by simp only [resolveLoop, hres], hpass.1, hpass.2⟩

/-- The invariant holds at entry construction time. -/
theorem initial_inv (db : DB) (resp : String → String) (fuel : Nat) (start : String) :
    Inv db (tablesOf db fuel start) resp (entriesOf db fuel start) [] := by
  have hperm : List.Perm (sortedTablesOf db fuel start) (tablesOf db fuel start) :=
    List.perm_insertionSort strLeR _
  refine ⟨?_, ?_, List.nodup_nil, ?_, ?_, ?_, ?_, ?_, ?_⟩
  · rw [entriesOf_names]
    exact hperm.nodup_iff.mpr (List.nodup_dedup _)
  · intro e he
    rcases List.mem_map.mp he with ⟨t, ht, rfl⟩
    exact hperm.mem_iff.mp ht
  · intro n hn; exact absurd hn (List.not_mem_nil n)
  · intro n hn; exact absurd hn (List.not_mem_nil n)
  · intro e _ _; exact List.not_mem_nil _
  · intro e he hd p hp
    rcases List.mem_map.mp he with ⟨t, _, rfl⟩
    exact Or.inl hp
  · intro e he hd
    rcases List.mem_map.mp he with ⟨t, _, rfl⟩
    simp [buildEntry] at hd
  · intro t ht; exact absurd ht (List.not_mem_nil t)

/-- The cycle invariant holds at entry construction time, given a set `C`
each of whose members is a discovered table pending on another member. -/
theorem initial_cyc (db : DB) (fuel : Nat) (start : String) (C : List String)
    (hC : ∀ t ∈ C, t ∈ tablesOf db fuel start ∧
      ∃ p ∈ C, p ∈ origChildOf db (tablesOf db fuel start) t) :
    CycInv C (entriesOf db fuel start) := by
  intro t ht
  obtain ⟨htab, p, hpC, hporig⟩ := hC t ht
  refine ⟨buildEntry db (tablesOf db fuel start) t, ?_, rfl, rfl, p, hpC, hporig⟩
  exact List.mem_map_of_mem _ ((List.perm_insertionSort strLeR _).mem_iff.mpr htab)

/-- Combined soundness of `resolve_recursive_dependencies`: the returned
order is duplicate-free, drawn from the discovered tables, only contains
confirmed tables, respects every live parent edge within it, and every member
of a closed pending cycle `C` ends up in the blocked report and outside the
order. -/
theorem resolve_sound (db : DB) (resp : String → String) (start : String) (fuel : Nat)
    (C : List String)
    (hC : ∀ t ∈ C, t ∈ tablesOf db fuel start ∧
      ∃ p ∈ C, p ∈ origChildOf db (tablesOf db fuel start) t) :
    (resolve_recursive_dependencies db resp start fuel).1.Nodup ∧
    (∀ n ∈ (resolve_recursive_dependencies db resp start fuel).1,
      n ∈ tablesOf db fuel start) ∧
    (∀ n ∈ (resolve_recursive_dependencies db resp start fuel).1,
      accepted (resp n) = true) ∧
    (∀ t₀ ∈ (resolve_recursive_dependencies db resp start fuel).1,
      ∀ p ∈ origChildOf db (tablesOf db fuel start) t₀, p ≠ t₀ →
        p ∈ (resolve_recursive_dependencies db resp start fuel).1 →
        Before (resolve_recursive_dependencies db resp start fuel).1 p t₀) ∧
    (∀ t₀ ∈ C, t₀ ∈ (resolve_recursive_dependencies db resp start fuel).2 ∧
      t₀ ∉ (resolve_recursive_dependencies db resp start fuel).1) := by
  by_cases hemp : (discover db fuel start).isEmpty
  · have hres : resolve_recursive_dependencies db resp start fuel = ([], []) := by
      simp [resolve_recursive_dependencies, hemp]
    have htab : tablesOf db fuel start = [] := by
      rw [tablesOf, List.isEmpty_iff.mp hemp]; rfl
    rw [hres]
    refine ⟨List.nodup_nil, ?_, ?_, ?_, ?_⟩
    · intro n hn; exact absurd hn (List.not_mem_nil n)
    · intro n hn; exact absurd hn (List.not_mem_nil n)
    · intro t₀ ht₀; exact absurd ht₀ (List.not_mem_nil t₀)
    · intro t₀ ht₀
      have := (hC t₀ ht₀).1
      rw [htab] at this
      exact absurd this (List.not_mem_nil t₀)
  · obtain ⟨E', ord', heq, hI, hCf⟩ := resolveLoop_invCyc (C := C)
      ((entriesOf db fuel start).length + 1) (entriesOf db fuel start) []
      (initial_inv db resp fuel start) (initial_cyc db fuel start C hC)
    have hres : resolve_recursive_dependencies db resp start fuel =
        (ord', remainingNames E') := by
      rw [resolve_recursive_dependencies]
      simp only [hemp, Bool.false_eq_true, if_false]
      exact heq
    rw [hres]
    refine ⟨hI.ordNodup, ?_, hI.ordAccepted, hI.orderOK, ?_⟩
    · intro n hn
      obtain ⟨x, hxE, hxname, _⟩ := hI.ordDumped n hn
      exact hxname ▸ hI.namesSub x hxE
    · intro t₀ ht₀
      obtain ⟨x, hxE, hxname, hxd, _, _, _⟩ := hCf t₀ ht₀
      constructor
      · refine hxname ▸ List.mem_map_of_mem _ ?_
        exact List.mem_filter.mpr ⟨hxE, by simp [hxd]⟩
      · exact hxname ▸ hI.undumpedNotOrd x hxE hxd

/-- Claim C1: in every run of the resolver (including partial orders after
deadlock), every table T of the returned order comes strictly after each of
its live FK parents P that is also in the order and distinct from T. -/
theorem claim_C1 (db : DB) (resp : String → String) (start : String) (fuel : Nat)
    (T P col : String)
    (hT : T ∈ (resolve_recursive_dependencies db resp start fuel).1)
    (hedge : (P, col) ∈ db.get_foreign_key_parents T)
    (hlive : db.has_non_null_fk_values T col = true)
    (hP : P ∈ (resolve_recursive_dependencies db resp start fuel).1)
    (hne : P ≠ T) :
    (resolve_recursive_dependencies db resp start fuel).1.indexOf P <
      (resolve_recursive_dependencies db resp start fuel).1.indexOf T := by
  obtain ⟨hnodup, hsub, _, hord, _⟩ := resolve_sound db resp start fuel []
    (fun t ht => absurd ht (List.not_mem_nil t))
  have hPtab : P ∈ tablesOf db fuel start := hsub P hP
  have hporig : P ∈ origChildOf db (tablesOf db fuel start) T := by
    rw [origChildOf]
    refine List.mem_map.mpr ⟨(P, col), ?_, rfl⟩
    refine List.mem_filter.mpr ⟨hedge, ?_⟩
    simp [hlive, hPtab]
  exact before_indexOf hnodup (hord T hT P hporig hne hP)

/-- Witness for C1: in the live chain `a -> b`, the parent `b` is emitted
strictly before `a`. -/
theorem claim_C1_witness :
    (resolve_recursive_dependencies dbAB respYes "a" 3).1.indexOf "b" <
      (resolve_recursive_dependencies dbAB respYes "a" 3).1.indexOf "a" :=
  claim_C1 dbAB respYes "a" 3 "a" "b" "b_id" (by decide) (by decide) (by decide)
    (by decide) (by decide)

/-- Claim C4: whenever the constructed entries contain a closed live cycle
`C` (every member pending on another member), the resolver still terminates,
returns the partial order built so far rather than failing, and its deadlock
report names every member of `C` — none of which is in the order. -/
theorem claim_C4 (db : DB) (resp : String → String) (start : String) (fuel : Nat)
    (C : List String)
    (hC : ∀ t ∈ C, t ∈ tablesOf db fuel start ∧
      ∃ p ∈ C, p ∈ origChildOf db (tablesOf db fuel start) t) :
    ∀ t ∈ C, t ∈ (resolve_recursive_dependencies db resp start fuel).2 ∧
      t ∉ (resolve_recursive_dependencies db resp start fuel).1 :=
  (resolve_sound db resp start fuel C hC).2.2.2.2

/-- Witness for C4: the two-table live cycle `a <-> b` with every
confirmation accepted deadlocks; both tables are reported blocked and the
returned order excludes both. -/
theorem claim_C4_witness :
    ("a" ∈ (resolve_recursive_dependencies dbCycle respYes "a" 3).2 ∧
      "a" ∉ (resolve_recursive_dependencies dbCycle respYes "a" 3).1) ∧
    ("b" ∈ (resolve_recursive_dependencies dbCycle respYes "a" 3).2 ∧
      "b" ∉ (resolve_recursive_dependencies dbCycle respYes "a" 3).1) :=
  ⟨claim_C4 dbCycle respYes "a" 3 ["a", "b"] (by decide) "a" (by decide),
    claim_C4 dbCycle respYes "a" 3 ["a", "b"] (by decide) "b" (by decide)⟩

/-- Claim C5: a table whose confirmation is declined is never part of the
returned order (it is marked dumped, which unblocks its dependents, but is
not appended). -/
theorem claim_C5 (db : DB) (resp : String → String) (start : String) (fuel : Nat)
    (t : String) (hdecl : accepted (resp t) = false) :
    t ∉ (resolve_recursive_dependencies db resp start fuel).1 := by
  intro hmem
  have hacc := (resolve_sound db resp start fuel []
    (fun x hx => absurd hx (List.not_mem_nil x))).2.2.1 t hmem
  rw [hdecl] at hacc
  exact Bool.false_ne_true hacc

/-- Witness for C5: in `a -> b` with `b` declined and `a` accepted, `b` is
absent and the returned order is exactly `[a]` — the decline unblocked the
dependent `a`. -/
theorem claim_C5_witness :
    accepted (respDeclineB "b") = false ∧
    "b" ∉ (resolve_recursive_dependencies dbAB respDeclineB "a" 3).1 ∧
    (resolve_recursive_dependencies dbAB respDeclineB "a" 3).1 = ["a"] :=
  ⟨by decide, claim_C5 dbAB respDeclineB "a" 3 "b" (by decide), by decide⟩

/-- Claim C8: a table that is not live-reachable from the root (for instance
one joined only through an entirely-null FK column) is absent from the
discovered relevant set and from the resolved order. -/
theorem claim_C8 (db : DB) (resp : String → String) (start : String) (fuel : Nat)
    (B : String) (hB : ¬ LiveReach db start B) :
    B ∉ discover db fuel start ∧
    B ∉ (resolve_recursive_dependencies db resp start fuel).1 := by
  have hdisc : B ∉ discover db fuel start :=
    fun h => hB (discover_sound db fuel start B h)
  refine ⟨hdisc, ?_⟩
  intro hmem
  have htab := (resolve_sound db resp start fuel []
    (fun x hx => absurd hx (List.not_mem_nil x))).2.1 B hmem
  exact hdisc (List.mem_dedup.mp htab)

/-- Witness for C8: `a` references `b` only through an all-null column, so
`b` is not live-reachable; the dormant edge is not followed and `b` appears
neither in the relevant set nor in the order. -/
theorem claim_C8_witness :
    "b" ∉ discover dbDormant 3 "a" ∧
    "b" ∉ (resolve_recursive_dependencies dbDormant respYes "a" 3).1 :=
  claim_C8 dbDormant respYes "a" 3 "b" (by
    intro h
    rcases Relation.ReflTransGen.cases_head h with heq | ⟨c, hstep, _⟩
    · exact absurd heq (by decide)
    · rcases hstep with ⟨col, hmem, hlive⟩ | ⟨col, hmem, hlive⟩
      · simp [dbDormant] at hmem hlive
      · simp [dbDormant] at hmem)

/-- Claim C10: the resolver's returned list holds each table name at most
once, and every name in it was discovered by the depth-first traversal. -/
theorem claim_C10 (db : DB) (resp : String → String) (start : String) (fuel : Nat) :
    (resolve_recursive_dependencies db resp start fuel).1.Nodup ∧
    ∀ n ∈ (resolve_recursive_dependencies db resp start fuel).1,
      n ∈ discover db fuel start := by
  obtain ⟨hnd, hsub, _⟩ := resolve_sound db resp start fuel []
    (fun x hx => absurd hx (List.not_mem_nil x))
  exact ⟨hnd, fun n hn => List.mem_dedup.mp (hsub n hn)⟩

/-- Witness for C10 on a concrete single-table run. -/
theorem claim_C10_witness :
    (resolve_recursive_dependencies dbRows respYes "b" 2).1.Nodup ∧
    "b" ∈ discover dbRows 2 "b" :=
  ⟨(claim_C10 dbRows respYes "b" 2).1, (claim_C10 dbRows respYes "b" 2).2 "b" (by decide)⟩

theorem data_append (a b : String) : (a ++ b).data = a.data ++ b.data := by
  cases a; cases b; rfl

/-- Every statement the row loop emits is an `INSERT` over a nonempty batch
of at most 1000 rows (the running batch always stays below 1000). -/
theorem insertStmts_batched (table colList : String) :
    ∀ (rows : List (List Value)) (batch : List String), batch.length < 1000 →
      ∀ s ∈ insertStmts table colList rows batch,
        ∃ b : List String, b ≠ [] ∧ b.length ≤ 1000 ∧ s = mkInsert table colList b
  | [], batch => by
    intro hlt s hs
    cases hbe : batch.isEmpty with
    | true => simp [insertStmts, hbe] at hs
    | false =>
      simp only [insertStmts, hbe, Bool.false_eq_true, if_false] at hs
      refine ⟨batch, ?_, hlt.le, List.mem_singleton.mp hs⟩
      intro h
      rw [h] at hbe
      simp at hbe
  | row :: rest, batch => by
    intro hlt s hs
    simp only [insertStmts] at hs
    cases hb : (batch ++ [formatRow row]).length == 1000 with
    | true =>
      rw [hb] at hs
      simp only [if_true] at hs
      rcases List.mem_cons.mp hs with rfl | hs
      · refine ⟨batch ++ [formatRow row], ?_, ?_, rfl⟩
        · simp
        · exact Nat.le_of_eq (by simpa using hb)
      · exact insertStmts_batched table colList rest [] (by simp) s hs
    | false =>
      rw [hb] at hs
      simp only [Bool.false_eq_true, if_false] at hs
      have hlen : (batch ++ [formatRow row]).length < 1000 := by
        have hne : (batch ++ [formatRow row]).length ≠ 1000 := by
          simpa using hb
        have : (batch ++ [formatRow row]).length = batch.length + 1 := by simp
        omega
      exact insertStmts_batched table colList rest (batch ++ [formatRow row]) hlen s hs

/-- The row loop emits at least one statement when there is a row to flush. -/
theorem insertStmts_ne_nil (table colList : String) :
    ∀ (rows : List (List Value)) (batch : List String), rows ≠ [] ∨ batch ≠ [] →
      insertStmts table colList rows batch ≠ []
  | [], batch => by
    intro h
    rcases h with h | h
    · exact absurd rfl h
    · cases hbe : batch.isEmpty with
      | true => exact absurd (List.isEmpty_iff.mp hbe) h
      | false => simp [insertStmts, hbe]
  | row :: rest, batch => by
    intro _
    simp only [insertStmts]
    cases hb : (batch ++ [formatRow row]).length == 1000 with
    | true => simp
    | false =>
      simp only [Bool.false_eq_true, if_false]
      exact insertStmts_ne_nil table colList rest (batch ++ [formatRow row]) (Or.inr (by simp))

theorem pyJoin_ne_empty_of_head (sep x : String) (l : List String)
    (hx : x.data ≠ []) : pyJoin sep (x :: l) ≠ "" := by
  cases l with
  | nil =>
    intro h
    exact hx (by rw [show x = "" from h])
  | cons y ys =>
    intro h
    have hdata := congrArg String.data h
    rw [show pyJoin sep (x :: y :: ys) = x ++ sep ++ pyJoin sep (y :: ys) from rfl] at hdata
    rw [data_append, data_append] at hdata
    simp only [List.append_eq_nil] at hdata
    exact hx hdata.1.1

theorem dumpHeader_data_ne_nil (t : String) : (dumpHeader t).data ≠ [] := by
  intro h
  rw [dumpHeader, data_append, data_append] at h
  simp only [List.append_eq_nil] at h
  have h1 : ("-- Dump of table `" : String).data = [] := h.1.1
  exact absurd h1 (by decide)

/-- Claim C3, amended: a table of the insertion order with at least one row
contributes exactly its block to the insertion section — the comment header
naming the table followed by one or more batched INSERT statements of at most
1000 rows each — while a table with zero rows contributes no block at all
(and no empty-table comment): its dump is the empty string, which `main`
filters out. -/
theorem claim_C3 (db : DB) (tables : List String) (t : String) (ht : t ∈ tables) :
    (db.rows t = [] →
      dump_table db t = "" ∧ ∀ part ∈ insertParts db tables, part ≠ "") ∧
    (db.rows t ≠ [] →
      dump_table db t ∈ insertParts db tables ∧
      ∃ stmts, stmts ≠ [] ∧
        dump_table db t = pyJoin "\n" (dumpHeader t :: stmts ++ [""]) ∧
        ∀ s ∈ stmts, ∃ b, b ≠ [] ∧ b.length ≤ 1000 ∧
          s = mkInsert t (colListOf db t) b) := by
  constructor
  · intro hrows
    constructor
    · simp [dump_table, hrows]
    · intro part hpart
      have := (List.mem_filter.mp hpart).2
      simpa using this
  · intro hrows
    have hbe : (db.rows t).isEmpty = false := by
      cases h : (db.rows t).isEmpty with
      | true => exact absurd (List.isEmpty_iff.mp h) hrows
      | false => rfl
    have hdump : dump_table db t =
        pyJoin "\n" (dumpHeader t :: insertStmts t (colListOf db t) (db.rows t) [] ++ [""]) := by
      simp [dump_table, hbe]
    have hne : dump_table db t ≠ "" := by
      rw [hdump]
      exact pyJoin_ne_empty_of_head "\n" (dumpHeader t) _ (dumpHeader_data_ne_nil t)
    constructor
    · refine List.mem_filter.mpr ⟨?_, by simpa using hne⟩
      exact List.mem_map_of_mem _ ht
    · refine ⟨insertStmts t (colListOf db t) (db.rows t) [], ?_, hdump, ?_⟩
      · exact insertStmts_ne_nil t (colListOf db t) (db.rows t) [] (Or.inl hrows)
      · exact insertStmts_batched t (colListOf db t) (db.rows t) [] (by simp)

/-- Witness for the amended C3: the two-row table `b` contributes its header
and one properly batched INSERT statement to the insertion section. -/
theorem claim_C3_witness :
    dump_table dbRows "b" ∈ insertParts dbRows ["a", "b"] ∧
    ∃ stmts, stmts ≠ [] ∧
      dump_table dbRows "b" = pyJoin "\n" (dumpHeader "b" :: stmts ++ [""]) ∧
      ∀ s ∈ stmts, ∃ b, b ≠ [] ∧ b.length ≤ 1000 ∧
        s = mkInsert "b" (colListOf dbRows "b") b :=
  (claim_C3 dbRows ["a", "b"] "b" (by decide)).2 (by decide)

end RecursiveDump
